import Mathlib

/-!
Verification of the `Find_files.py` contamination-file locator.

The script is embedded shallowly:

* A filesystem is modelled extensionally as the list of the paths of all
  existing filesystem objects, in the (arbitrary) order the operating
  system enumerates them.  Directory existence is inferred from the
  listing (`os_path_exists`).
* `glob.glob(os.path.join(dir, "**", pat), recursive=True)` becomes a
  filter selecting the paths that lie under `dir`, have no hidden
  component below `dir` (glob's `*`/`**` never match names starting with
  a dot), and whose base name matches the pattern (all three patterns
  have the shape `*suffix`, so matching is suffix matching).
  The model assumes `dir` is written without a trailing slash.
* Python's `sorted` becomes `List.insertionSort pathLe` where `pathLe`
  is the lexicographic-by-code-point order, exactly the order Python
  uses on strings.
* Python string primitives are re-implemented by structural recursion on
  the character list of the string (`String.data`), so that every
  definition evaluates inside the kernel: `str.replace` (replace every
  non-overlapping occurrence, scanning left to right), `in` on strings
  (substring containment), prefix/suffix tests, splitting.
-/

namespace FindFiles

/-! ### Character-list string primitives -/

/-- Boolean prefix test on character lists. -/
def isPrefixList : List Char → List Char → Bool
  | [], _ => true
  | _ :: _, [] => false
  | a :: as, b :: bs => decide (a = b) && isPrefixList as bs

/-- Boolean suffix test on character lists. -/
def isSuffixList (a b : List Char) : Bool :=
  isPrefixList a.reverse b.reverse

/-- Boolean substring-containment test on character lists
(Python's `needle in hay`). -/
def isInfixList (n : List Char) : List Char → Bool
  | [] => isPrefixList n []
  | c :: cs => isPrefixList n (c :: cs) || isInfixList n cs

/-- Split a character list on a separator character
(`"a/b".split("/")`-style: a list of the chunks between separators). -/
def splitOnChar (sep : Char) : List Char → List (List Char)
  | [] => [[]]
  | c :: cs =>
    if c = sep then [] :: splitOnChar sep cs
    else
      match splitOnChar sep cs with
      | [] => [[c]]
      | l :: ls => (c :: l) :: ls

/-- Lexicographic-by-code-point order on character lists, the order
Python uses to compare strings. -/
def leChars : List Char → List Char → Bool
  | [], _ => true
  | _ :: _, [] => false
  | a :: as, b :: bs => if a = b then leChars as bs else decide (a < b)

/-- The order `sorted` sorts paths by. -/
def pathLe (a b : String) : Prop := leChars a.data b.data = true

instance : DecidableRel pathLe := fun _ _ => instDecidableEqBool _ _

theorem leChars_total : ∀ a b : List Char, leChars a b = true ∨ leChars b a = true
  | [], _ => Or.inl rfl
  | _ :: _, [] => Or.inr rfl
  | a :: as, b :: bs => by
    by_cases hab : a = b
    · subst hab
      simpa [leChars] using leChars_total as bs
    · rcases lt_or_gt_of_ne hab with h | h
      · exact Or.inl (by simp [leChars, hab, h])
      · exact Or.inr (by simp [leChars, Ne.symm hab, h])

theorem leChars_trans :
    ∀ {a b c : List Char}, leChars a b = true → leChars b c = true → leChars a c = true
  | [], _, _, _, _ => rfl
  | _ :: _, [], _, h, _ => by simp [leChars] at h
  | _ :: _, _ :: _, [], _, h => by simp [leChars] at h
  | a :: as, b :: bs, c :: cs, hab, hbc => by
    by_cases h1 : a = b <;> by_cases h2 : b = c
    · subst h1; subst h2
      simp only [leChars, if_pos rfl] at hab hbc ⊢
      exact leChars_trans hab hbc
    · subst h1
      simpa [leChars, h2] using hbc
    · subst h2
      simpa [leChars, h1] using hab
    · simp only [leChars, if_neg h1, decide_eq_true_eq] at hab
      simp only [leChars, if_neg h2, decide_eq_true_eq] at hbc
      have hac : a < c := lt_trans hab hbc
      simp [leChars, ne_of_lt hac, hac]

theorem leChars_antisymm :
    ∀ {a b : List Char}, leChars a b = true → leChars b a = true → a = b
  | [], [], _, _ => rfl
  | [], _ :: _, _, h => by simp [leChars] at h
  | _ :: _, [], h, _ => by simp [leChars] at h
  | a :: as, b :: bs, hab, hba => by
    by_cases h : a = b
    · subst h
      simp only [leChars, if_pos rfl] at hab hba
      exact congrArg (a :: ·) (leChars_antisymm hab hba)
    · simp only [leChars, if_neg h, decide_eq_true_eq] at hab
      simp only [leChars, if_neg (Ne.symm h), decide_eq_true_eq] at hba
      exact absurd hba (lt_asymm hab)

instance : IsTotal String pathLe := ⟨fun a b => leChars_total a.data b.data⟩

instance : IsTrans String pathLe := ⟨fun _ _ _ hab hbc => leChars_trans hab hbc⟩

instance : IsAntisymm String pathLe :=
  ⟨fun a b hab hba => by
    cases a; cases b
    exact congrArg String.mk (leChars_antisymm hab hba)⟩

/-! ### The filesystem model and the Locator -/

/-- A filesystem: the paths of all existing filesystem objects, in the
order the OS enumerates them. -/
abbrev FileSystem := List String

/-- `os.path.basename`: everything after the last `/`. -/
def basename (p : String) : String :=
  String.mk ((splitOnChar '/' p.data).getLastD [])

/-- `os.path.exists` in the extensional model: a path exists when it is
listed or when some listed object lies strictly below it. -/
def os_path_exists (fs : FileSystem) (p : String) : Bool :=
  fs.any (fun q => decide (q = p) || isPrefixList (p.data ++ ['/']) q.data)

/-- The fixed search patterns of `find_contamination_files`
(the `patterns` dictionary, in insertion order). -/
def patterns : List (String × String) :=
  [("getpileupsummaries", "*_getpileupsummaries.table"),
   ("calculatecontamination", "*_calculatecontamination.table"),
   ("segments", "*_segments.table")]

/-- `glob.glob(os.path.join(dir, "**", pat), recursive=True)` for a
pattern of the shape `*suffix`: the listed paths that lie under `dir`,
have no hidden component below `dir`, and whose base name ends with
`suffix` (= `pat` without its leading `*`). -/
def globRecursive (fs : FileSystem) (dir : String) (pat : String) : List String :=
  fs.filter (fun p =>
    isPrefixList (dir.data ++ ['/']) p.data &&
    (splitOnChar '/' (p.data.drop (dir.data.length + 1))).all
      (fun c => !(isPrefixList ['.'] c)) &&
    isSuffixList (pat.data.drop 1) (basename p).data)

/-- The pure core of `find_contamination_files`: for each pattern,
recursively glob and sort; the result dictionary is modelled as an
association list in insertion order. -/
def find_contamination_files (fs : FileSystem) (search_directory : String) :
    List (String × List String) :=
  patterns.map (fun fp =>
    (fp.1, List.insertionSort pathLe (globRecursive fs search_directory fp.2)))

/-- Python `str(bool)`. -/
def pyBool (b : Bool) : String := if b then "True" else "False"

/-- The deterministic opening lines printed by `find_contamination_files`
(the search banner, the existence check, and the separator).  The rest of
the console output depends on the OS enumeration order and on Python's
set iteration order, so it is not modelled. -/
def findConsoleHeader (fs : FileSystem) (dir : String) : List String :=
  ["🔍 Searching in directory: " ++ dir,
   "📁 Directory exists: " ++ pyBool (os_path_exists fs dir),
   String.mk (List.replicate 60 '=')]

/-- C10: the mapping returned by `find_contamination_files` always has
exactly the three keys, in insertion order. -/
theorem find_keys_exact (fs : FileSystem) (dir : String) :
    (find_contamination_files fs dir).map Prod.fst =
      ["getpileupsummaries", "calculatecontamination", "segments"] := by
  simp [find_contamination_files, patterns]

/-- C5: a non-existent search directory yields empty lists for all three
categories (the model is total, so no error is raised), and the console
existence check is printed with `False`. -/
theorem find_nonexistent_dir (fs : FileSystem) (dir : String)
    (h : os_path_exists fs dir = false) :
    find_contamination_files fs dir =
      [("getpileupsummaries", []), ("calculatecontamination", []), ("segments", [])] ∧
    "📁 Directory exists: False" ∈ findConsoleHeader fs dir := by
  have hglob : ∀ pat, globRecursive fs dir pat = [] := by
    intro pat
    apply List.filter_eq_nil_iff.mpr
    intro p hp
    have hnp : ¬ (isPrefixList (dir.data ++ ['/']) p.data = true) := by
      intro hpre
      have : fs.any (fun q => decide (q = dir) || isPrefixList (dir.data ++ ['/']) q.data) = true :=
        List.any_eq_true.mpr ⟨p, hp, by simp [hpre]⟩
      rw [os_path_exists] at h
      simp [this] at h
    simp [hnp]
  constructor
  · simp [find_contamination_files, patterns, hglob]
  · simp [findConsoleHeader, h, pyBool]

/-- Witness for C5 at a concrete filesystem and directory. -/
theorem find_nonexistent_dir_witness :
    find_contamination_files ["data/A_segments.table"] "missing" =
      [("getpileupsummaries", []), ("calculatecontamination", []), ("segments", [])] ∧
    "📁 Directory exists: False" ∈
      findConsoleHeader ["data/A_segments.table"] "missing" :=
  find_nonexistent_dir ["data/A_segments.table"] "missing" (by decide)

/-- C4: every path the Locator returns for a category lies under the
search root and matches that category's suffix pattern, and each
category's list is sorted lexicographically. -/
theorem locator_sound (fs : FileSystem) (dir ft pat : String)
    (hpat : (ft, pat) ∈ patterns) (files : List String)
    (hlk : List.lookup ft (find_contamination_files fs dir) = some files) :
    List.Sorted pathLe files ∧
    ∀ p ∈ files, isPrefixList (dir.data ++ ['/']) p.data = true ∧
      isSuffixList (pat.data.drop 1) (basename p).data = true := by
  have hmem : ∀ pat', ∀ p ∈ List.insertionSort pathLe (globRecursive fs dir pat'),
      isPrefixList (dir.data ++ ['/']) p.data = true ∧
      isSuffixList (pat'.data.drop 1) (basename p).data = true := by
    intro pat' p hp
    have hp' : p ∈ globRecursive fs dir pat' := (List.mem_insertionSort pathLe).mp hp
    have := (List.mem_filter.mp hp').2
    simp only [Bool.and_eq_true] at this
    exact ⟨this.1.1, this.2⟩
  simp only [patterns, List.mem_cons, List.not_mem_nil, or_false,
    Prod.mk.injEq] at hpat
  rcases hpat with ⟨rfl, rfl⟩ | ⟨rfl, rfl⟩ | ⟨rfl, rfl⟩ <;>
    · simp [find_contamination_files, patterns, List.lookup] at hlk
      subst hlk
      exact ⟨List.sorted_insertionSort pathLe _, hmem _⟩

/-- Witness for C4 on a concrete tree (the two matches arrive in
unsorted enumeration order and come back sorted). -/
theorem locator_sound_witness :
    List.Sorted pathLe ["root/b_segments.table", "root/sub/a_segments.table"] ∧
    ∀ p ∈ ["root/b_segments.table", "root/sub/a_segments.table"],
      isPrefixList ("root".data ++ ['/']) p.data = true ∧
      isSuffixList ("*_segments.table".data.drop 1) (basename p).data = true :=
  locator_sound ["root/sub/a_segments.table", "root/b_segments.table"] "root"
    "segments" "*_segments.table" (by decide)
    ["root/b_segments.table", "root/sub/a_segments.table"] (by decide)

/-- C9: the Locator is deterministic: two runs over the same unchanged
tree — i.e. over any two OS enumeration orders of the same set of
filesystem objects — produce identical, identically ordered results. -/
theorem locator_deterministic (fs₁ fs₂ : FileSystem) (dir : String)
    (hperm : fs₁.Perm fs₂) :
    find_contamination_files fs₁ dir = find_contamination_files fs₂ dir := by
  simp only [find_contamination_files]
  have key : (fun fp : String × String =>
        (fp.1, List.insertionSort pathLe (globRecursive fs₁ dir fp.2))) =
      (fun fp : String × String =>
        (fp.1, List.insertionSort pathLe (globRecursive fs₂ dir fp.2))) := by
    funext fp
    apply congrArg
    exact List.eq_of_perm_of_sorted
      ((List.perm_insertionSort pathLe _).trans
        ((hperm.filter _).trans (List.perm_insertionSort pathLe _).symm))
      (List.sorted_insertionSort pathLe _)
      (List.sorted_insertionSort pathLe _)
  rw [key]

/-- Witness for C9: two enumeration orders of the same two files. -/
theorem locator_deterministic_witness :
    find_contamination_files
        ["r/b_segments.table", "r/a_getpileupsummaries.table"] "r" =
      find_contamination_files
        ["r/a_getpileupsummaries.table", "r/b_segments.table"] "r" :=
  locator_deterministic
    ["r/b_segments.table", "r/a_getpileupsummaries.table"]
    ["r/a_getpileupsummaries.table", "r/b_segments.table"] "r"
    (List.Perm.swap _ _ _)

/-! ### The completeness checker -/

/-- Fuel-driven core of Python's `str.replace`: replace every
non-overlapping occurrence of `pat`, scanning left to right.  The fuel
only makes the recursion structural; it is always called with at least
the length of the string, which is enough because each step consumes at
least one character.  (All call sites in the script use a non-empty
pattern; for an empty pattern this model is the identity, a case the
script never exercises.) -/
def pyReplaceAux (pat rep : List Char) : Nat → List Char → List Char
  | 0, s => s
  | _ + 1, [] => []
  | fuel + 1, c :: cs =>
    if pat ≠ [] ∧ isPrefixList pat (c :: cs) = true then
      rep ++ pyReplaceAux pat rep fuel ((c :: cs).drop pat.length)
    else
      c :: pyReplaceAux pat rep fuel cs

/-- Python's `s.replace(pat, rep)` on character lists. -/
def pyReplaceList (pat rep s : List Char) : List Char :=
  pyReplaceAux pat rep s.length s

/-- Sample-name extraction of the consistency check (the
`if file_type == ...: sample = filename.replace(..., "")` chain).  The
final branch is unreachable: the result dictionary has exactly the three
pattern keys. -/
def sampleOf (file_type filename : String) : String :=
  if file_type = "getpileupsummaries" then
    String.mk (pyReplaceList "_getpileupsummaries.table".data [] filename.data)
  else if file_type = "calculatecontamination" then
    String.mk (pyReplaceList "_calculatecontamination.table".data [] filename.data)
  else if file_type = "segments" then
    String.mk (pyReplaceList "_segments.table".data [] filename.data)
  else filename

/-- `results[file_type]` (the key is always present: the dictionary has
exactly the three pattern keys). -/
def resLookup (results : List (String × List String)) (file_type : String) :
    List String :=
  (List.lookup file_type results).getD []

/-- Python's `needle in hay` on strings: substring containment. -/
def containsSub (needle hay : String) : Bool :=
  isInfixList needle.data hay.data

/-- All sample names over all categories (`all_samples`).  Python holds
them in a set with unspecified iteration order; the model fixes the
first-occurrence order, which affects neither the set of samples nor any
per-sample data. -/
def allSamplesList (results : List (String × List String)) : List String :=
  ((results.map (fun r => r.2.map (fun p => sampleOf r.1 (basename p)))).flatten).dedup

/-- The categories in which no file's base name contains the sample as a
substring (`missing_files[sample]`, built in `patterns` key order). -/
def missingFor (results : List (String × List String)) (sample : String) :
    List String :=
  (patterns.map Prod.fst).filter
    (fun ft => !((resLookup results ft).any (fun p => containsSub sample (basename p))))

/-- The incomplete-samples report: the samples whose missing-category
list is non-empty, together with that list. -/
def incomplete_samples (results : List (String × List String)) :
    List (String × List String) :=
  ((allSamplesList results).filter (fun s => !(missingFor results s).isEmpty)).map
    (fun s => (s, missingFor results s))

/-- C1: a discovered sample with no substring-matching file in a category
appears in the incomplete-samples report with that category listed, and a
sample with a substring-matching file in all three categories does not
appear in the report. -/
theorem completeness_check (fs : FileSystem) (dir sample : String)
    (hs : sample ∈ allSamplesList (find_contamination_files fs dir)) :
    (∀ ft ∈ patterns.map Prod.fst,
       (∀ p ∈ resLookup (find_contamination_files fs dir) ft,
           containsSub sample (basename p) = false) →
       ∃ miss, (sample, miss) ∈ incomplete_samples (find_contamination_files fs dir) ∧
         ft ∈ miss) ∧
    ((∀ ft ∈ patterns.map Prod.fst,
        ∃ p ∈ resLookup (find_contamination_files fs dir) ft,
          containsSub sample (basename p) = true) →
       ∀ e ∈ incomplete_samples (find_contamination_files fs dir), e.1 ≠ sample) := by
  constructor
  · intro ft hft hnone
    have hany : (resLookup (find_contamination_files fs dir) ft).any
        (fun p => containsSub sample (basename p)) = false := by
      rw [List.any_eq_false]
      intro p hp
      simp [hnone p hp]
    have hmiss : ft ∈ missingFor (find_contamination_files fs dir) sample := by
      unfold missingFor
      exact List.mem_filter.mpr ⟨hft, by simp [hany]⟩
    have hne : ¬ (missingFor (find_contamination_files fs dir) sample).isEmpty = true := by
      intro hemp
      rw [List.isEmpty_iff] at hemp
      simp [hemp] at hmiss
    refine ⟨missingFor (find_contamination_files fs dir) sample, ?_, hmiss⟩
    exact List.mem_map.mpr
      ⟨sample, List.mem_filter.mpr ⟨hs, by simp [hne]⟩, rfl⟩
  · intro hall e he heq
    obtain ⟨s, hsf, rfl⟩ := List.mem_map.mp he
    obtain ⟨hsmem, hsne⟩ := List.mem_filter.mp hsf
    have hs' : s = sample := heq
    subst hs'
    have hnil : missingFor (find_contamination_files fs dir) s = [] := by
      unfold missingFor
      apply List.filter_eq_nil_iff.mpr
      intro ft hft
      obtain ⟨p, hp, hc⟩ := hall ft hft
      have hany : (resLookup (find_contamination_files fs dir) ft).any
          (fun q => containsSub s (basename q)) = true :=
        List.any_eq_true.mpr ⟨p, hp, hc⟩
      simp [hany]
    simp [hnil] at hsne

/-- Witness for C1: the spec's own example — `A` has no segments file and
must be reported with `segments` missing; every sample matching in all
three categories stays out of the report. -/
theorem completeness_check_witness :
    (∀ ft ∈ patterns.map Prod.fst,
       (∀ p ∈ resLookup (find_contamination_files
             ["r/A_getpileupsummaries.table", "r/A_calculatecontamination.table",
              "r/B_getpileupsummaries.table", "r/B_segments.table"] "r") ft,
           containsSub "A" (basename p) = false) →
       ∃ miss, ("A", miss) ∈ incomplete_samples (find_contamination_files
             ["r/A_getpileupsummaries.table", "r/A_calculatecontamination.table",
              "r/B_getpileupsummaries.table", "r/B_segments.table"] "r") ∧
         ft ∈ miss) ∧
    ((∀ ft ∈ patterns.map Prod.fst,
        ∃ p ∈ resLookup (find_contamination_files
             ["r/A_getpileupsummaries.table", "r/A_calculatecontamination.table",
              "r/B_getpileupsummaries.table", "r/B_segments.table"] "r") ft,
          containsSub "A" (basename p) = true) →
       ∀ e ∈ incomplete_samples (find_contamination_files
             ["r/A_getpileupsummaries.table", "r/A_calculatecontamination.table",
              "r/B_getpileupsummaries.table", "r/B_segments.table"] "r"),
         e.1 ≠ "A") :=
  completeness_check
    ["r/A_getpileupsummaries.table", "r/A_calculatecontamination.table",
     "r/B_getpileupsummaries.table", "r/B_segments.table"] "r" "A" (by decide)

/-! ### Sample-name derivation (C6) -/

/-- The spec's `strip_suffix(basename, suffix)`: remove the trailing
occurrence of `suffix` if present (the natural reading of "removing a
category's fixed suffix from a file's base name").  Stated from the
spec's words, to be compared with the script's `replace`-based
`sampleOf`. -/
def specStripSuffix (s suffix : String) : String :=
  if isSuffixList suffix.data s.data then
    String.mk (s.data.take (s.data.length - suffix.data.length))
  else s

theorem isPrefixList_append_self : ∀ l r : List Char, isPrefixList l (l ++ r) = true
  | [], _ => rfl
  | a :: as, r => by simp [isPrefixList, isPrefixList_append_self as r]

theorem isSuffixList_append_self (l r : List Char) : isSuffixList l (r ++ l) = true := by
  unfold isSuffixList
  rw [List.reverse_append]
  exact isPrefixList_append_self l.reverse r.reverse

theorem pyReplaceAux_nil (pat rep : List Char) :
    ∀ fuel, pyReplaceAux pat rep fuel [] = []
  | 0 => rfl
  | _ + 1 => rfl

/-- If the pattern occurs in `pre ++ pat` only as the trailing suffix,
replacing it by the empty string leaves exactly `pre`. -/
theorem pyReplaceAux_strip (pat pre : List Char) (hpat : pat ≠ [])
    (h : ∀ i < pre.length, isPrefixList pat ((pre ++ pat).drop i) = false) :
    ∀ fuel, (pre ++ pat).length ≤ fuel → pyReplaceAux pat [] fuel (pre ++ pat) = pre := by
  induction pre with
  | nil =>
    intro fuel hfuel
    obtain ⟨c, cs, rfl⟩ : ∃ c cs, pat = c :: cs := by
      cases pat with
      | nil => exact absurd rfl hpat
      | cons c cs => exact ⟨c, cs, rfl⟩
    cases fuel with
    | zero => simp at hfuel
    | succ f =>
      have hpre : isPrefixList (c :: cs) ((c :: cs) : List Char) = true := by
        have := isPrefixList_append_self (c :: cs) []
        simpa using this
      simp only [List.nil_append, pyReplaceAux, hpre, ne_eq, reduceCtorEq,
        not_false_eq_true, and_self, if_true, List.nil_append]
      rw [List.drop_length, pyReplaceAux_nil]
  | cons d pre' ih =>
    intro fuel hfuel
    cases fuel with
    | zero => simp at hfuel
    | succ f =>
      have h0 : isPrefixList pat ((d :: pre') ++ pat) = false := by
        have := h 0 (by simp)
        simpa using this
      have hguard : ¬ (pat ≠ [] ∧ isPrefixList pat (d :: (pre' ++ pat)) = true) := by
        intro hg
        rw [show d :: (pre' ++ pat) = (d :: pre') ++ pat from rfl, h0] at hg
        exact absurd hg.2 (by simp)
      show pyReplaceAux pat [] (f + 1) (d :: (pre' ++ pat)) = d :: pre'
      rw [pyReplaceAux, if_neg hguard]
      have h' : ∀ i < pre'.length, isPrefixList pat ((pre' ++ pat).drop i) = false := by
        intro i hi
        have := h (i + 1) (by simp; omega)
        simpa using this
      have hfuel' : (pre' ++ pat).length ≤ f := by
        simp only [List.length_append, List.cons_append, List.length_cons] at hfuel ⊢
        omega
      rw [ih h' f hfuel']

/-- Replacing the suffix by `""` and stripping the trailing suffix agree
whenever the suffix occurs only at the end. -/
theorem sample_strip_generic (suf pre : List Char) (hsuf : suf ≠ [])
    (h : ∀ i < pre.length, isPrefixList suf ((pre ++ suf).drop i) = false) :
    pyReplaceList suf [] (pre ++ suf) = pre ∧
    specStripSuffix (String.mk (pre ++ suf)) (String.mk suf) = String.mk pre := by
  constructor
  · unfold pyReplaceList
    exact pyReplaceAux_strip suf pre hsuf h _ le_rfl
  · unfold specStripSuffix
    rw [if_pos (isSuffixList_append_self suf pre)]
    apply congrArg String.mk
    show (pre ++ suf).take ((pre ++ suf).length - suf.length) = pre
    rw [List.length_append, Nat.add_sub_cancel]
    exact List.take_left pre suf

/-- `sampleOf` is `filename.replace(suffix, "")` for the category's
suffix, for each of the three categories. -/
theorem sampleOf_eq_replace (ft pat : String) (hpat : (ft, pat) ∈ patterns)
    (fn : String) :
    sampleOf ft fn = String.mk (pyReplaceList (pat.data.drop 1) [] fn.data) := by
  rcases (by simpa [patterns, Prod.mk.injEq] using hpat :
      (ft = "getpileupsummaries" ∧ pat = "*_getpileupsummaries.table") ∨
      (ft = "calculatecontamination" ∧ pat = "*_calculatecontamination.table") ∨
      (ft = "segments" ∧ pat = "*_segments.table")) with
    ⟨rfl, rfl⟩ | ⟨rfl, rfl⟩ | ⟨rfl, rfl⟩
  · rw [show ("*_getpileupsummaries.table".data.drop 1)
        = "_getpileupsummaries.table".data from by decide]
    simp [sampleOf]
  · rw [show ("*_calculatecontamination.table".data.drop 1)
        = "_calculatecontamination.table".data from by decide]
    simp [sampleOf]
  · rw [show ("*_segments.table".data.drop 1) = "_segments.table".data from by decide]
    simp [sampleOf]

/-- Counterexample for C6 as stated: a discoverable file whose base name
contains the category suffix twice.  `replace` removes both occurrences,
suffix-stripping removes only the trailing one. -/
theorem sample_name_counterexample :
    resLookup (find_contamination_files ["d/A_segments.table_segments.table"] "d")
        "segments" = ["d/A_segments.table_segments.table"] ∧
    sampleOf "segments" (basename "d/A_segments.table_segments.table") = "A" ∧
    specStripSuffix (basename "d/A_segments.table_segments.table") "_segments.table"
      = "A_segments.table" ∧
    ("A" : String) ≠ "A_segments.table" := by decide

/-- C6 amended: the sample name is the base name with every occurrence of
the category's suffix removed (`str.replace` semantics); whenever the
suffix occurs in the base name only as its trailing suffix, this
coincides with `strip_suffix(basename, suffix)`. -/
theorem sample_name_strip (ft pat : String) (hpat : (ft, pat) ∈ patterns)
    (pre : List Char)
    (h : ∀ i < pre.length,
        isPrefixList (pat.data.drop 1) ((pre ++ pat.data.drop 1).drop i) = false) :
    sampleOf ft (String.mk (pre ++ pat.data.drop 1)) = String.mk pre ∧
    specStripSuffix (String.mk (pre ++ pat.data.drop 1)) (String.mk (pat.data.drop 1))
      = String.mk pre := by
  have hsuf : pat.data.drop 1 ≠ [] := by
    rcases (by simpa [patterns, Prod.mk.injEq] using hpat :
        (ft = "getpileupsummaries" ∧ pat = "*_getpileupsummaries.table") ∨
        (ft = "calculatecontamination" ∧ pat = "*_calculatecontamination.table") ∨
        (ft = "segments" ∧ pat = "*_segments.table")) with
      ⟨rfl, rfl⟩ | ⟨rfl, rfl⟩ | ⟨rfl, rfl⟩ <;> decide
  obtain ⟨h1, h2⟩ := sample_strip_generic (pat.data.drop 1) pre hsuf h
  refine ⟨?_, h2⟩
  rw [sampleOf_eq_replace ft pat hpat]
  exact congrArg String.mk h1

/-- Witness for the amended C6 at the base name `SampleA_segments.table`. -/
theorem sample_name_strip_witness :
    sampleOf "segments"
        (String.mk ("SampleA".data ++ "*_segments.table".data.drop 1))
      = String.mk "SampleA".data ∧
    specStripSuffix (String.mk ("SampleA".data ++ "*_segments.table".data.drop 1))
        (String.mk ("*_segments.table".data.drop 1))
      = String.mk "SampleA".data :=
  sample_name_strip "segments" "*_segments.table" (by decide) "SampleA".data
    (by decide)

/-! ### The path-list writer -/

/-- Python's `str.upper` for the ASCII category keys used here
(uppercasing `a`–`z`, everything else unchanged). -/
def pyCharUpper (c : Char) : Char :=
  if 'a' ≤ c ∧ c ≤ 'z' then Char.ofNat (c.toNat - 32) else c

/-- `file_type.upper()`. -/
def pyUpper (s : String) : String := String.mk (s.data.map pyCharUpper)

/-- The comment header written before a category in the combined file
(`f"# {file_type.upper()} FILES"`, without its trailing newline). -/
def headerOf (ft : String) : String := "# " ++ pyUpper ft ++ " FILES"

/-- A category's per-path writes: one `f"{file_path}\n"` per path. -/
def pathsContent : List String → String
  | [] => ""
  | p :: ps => p ++ "\n" ++ pathsContent ps

/-- The per-category blocks of the combined file: header line, the
category's paths, and a blank separator line. -/
def sectionsContent : List (String × List String) → String
  | [] => ""
  | r :: rest => headerOf r.1 ++ "\n" ++ pathsContent r.2 ++ "\n" ++ sectionsContent rest

/-- The content of the combined `{base}_all_paths.txt` file. -/
def allPathsContent (results : List (String × List String)) : String :=
  "# All contamination files" ++ "\n" ++ sectionsContent results

/-- `base_name = output_file.replace('.txt', '').replace('.json', '')`. -/
def pyBase (output_file : String) : String :=
  String.mk (pyReplaceList ".json".data [] (pyReplaceList ".txt".data [] output_file.data))

/-- `save_results`: the files written, as (name, content) pairs in write
order — one path list per category, then the combined file. -/
def save_results (results : List (String × List String)) (output_file : String) :
    List (String × String) :=
  results.map (fun r => (pyBase output_file ++ "_" ++ r.1 ++ "_paths.txt",
    pathsContent r.2)) ++
  [(pyBase output_file ++ "_all_paths.txt", allPathsContent results)]

/-- The output-writing step of `find_contamination_files`: `save_results`
runs only when the optional `output_file` argument is truthy (Python's
`if output_file:` — `None` and the empty string are falsy). -/
def find_contamination_outputs (fs : FileSystem) (dir : String)
    (output_file : Option String) : List (String × String) :=
  match output_file with
  | none => []
  | some f => if f = "" then []
              else save_results (find_contamination_files fs dir) f

/-- C8: when the `-o` (long form `--output`) option is omitted (the
argument is `None`), no output files are written. -/
theorem no_output_when_omitted (fs : FileSystem) (dir : String) :
    find_contamination_outputs fs dir none = [] := rfl

/-- The lines of a file's content (splitting its characters on `'\n'`). -/
def linesOf (s : String) : List String :=
  (splitOnChar '\n' s.data).map String.mk

/-- The region of a line list strictly between the first occurrence of
`header` and the next blank line. -/
def sectionAfterHeader (ls : List String) (header : String) : List String :=
  ((ls.dropWhile (fun l => l != header)).drop 1).takeWhile (fun l => l != "")

/-- The expected line structure of the combined file below its first
line: per category a header line, the paths, and a blank line. -/
def sectionLines : List (String × List String) → List String
  | [] => []
  | r :: rest => headerOf r.1 :: (r.2 ++ [""] ++ sectionLines rest)

theorem strData_append (a b : String) : (a ++ b).data = a.data ++ b.data := rfl

theorem splitOnChar_append_cons (sep : Char) (a r : List Char) (h : sep ∉ a) :
    splitOnChar sep (a ++ sep :: r) = a :: splitOnChar sep r := by
  induction a with
  | nil => simp [splitOnChar]
  | cons c a' ih =>
    have hc : ¬ c = sep := fun hcs => h (by rw [hcs]; exact List.mem_cons_self _ _)
    have h' : sep ∉ a' := fun hm => h (List.mem_cons_of_mem c hm)
    simp only [List.cons_append, splitOnChar, if_neg hc, List.append_eq]
    rw [ih h']

theorem splitOnChar_pathsContent (files : List String) (r : List Char)
    (h : ∀ p ∈ files, '\n' ∉ p.data) :
    splitOnChar '\n' ((pathsContent files).data ++ r)
      = files.map String.data ++ splitOnChar '\n' r := by
  induction files with
  | nil => rfl
  | cons p ps ih =>
    have hdata : (pathsContent (p :: ps)).data
        = p.data ++ '\n' :: (pathsContent ps).data := by
      show (p ++ "\n" ++ pathsContent ps).data = _
      rw [strData_append, strData_append,
        show ("\n" : String).data = ['\n'] from by decide]
      simp
    rw [hdata, List.append_assoc, List.cons_append,
      splitOnChar_append_cons '\n' p.data _ (h p (List.mem_cons_self p ps)),
      ih (fun q hq => h q (List.mem_cons_of_mem p hq))]
    rfl

theorem map_mk_data : ∀ l : List String, (l.map String.data).map String.mk = l
  | [] => rfl
  | a :: t => by
    have ha : String.mk a.data = a := rfl
    simp [ha, map_mk_data t]

theorem splitOnChar_sectionsContent (rs : List (String × List String))
    (hk : ∀ r ∈ rs, '\n' ∉ (headerOf r.1).data)
    (hp : ∀ r ∈ rs, ∀ p ∈ r.2, '\n' ∉ p.data) :
    splitOnChar '\n' (sectionsContent rs).data
      = (sectionLines rs).map String.data ++ [[]] := by
  induction rs with
  | nil => rfl
  | cons r rest ih =>
    have hdata : (sectionsContent (r :: rest)).data
        = (headerOf r.1).data ++ '\n' ::
            ((pathsContent r.2).data ++ '\n' :: (sectionsContent rest).data) := by
      show (headerOf r.1 ++ "\n" ++ pathsContent r.2 ++ "\n" ++ sectionsContent rest).data = _
      rw [strData_append, strData_append, strData_append, strData_append,
        show ("\n" : String).data = ['\n'] from by decide]
      simp
    rw [hdata, splitOnChar_append_cons '\n' _ _ (hk r (List.mem_cons_self r rest)),
      splitOnChar_pathsContent r.2 _ (hp r (List.mem_cons_self r rest))]
    have hsp : splitOnChar '\n' ('\n' :: (sectionsContent rest).data)
        = [] :: splitOnChar '\n' (sectionsContent rest).data := by
      simp [splitOnChar]
    rw [hsp, ih (fun q hq => hk q (List.mem_cons_of_mem r hq))
      (fun q hq => hp q (List.mem_cons_of_mem r hq))]
    simp [sectionLines]

theorem linesOf_pathsContent (files : List String)
    (h : ∀ p ∈ files, '\n' ∉ p.data) :
    linesOf (pathsContent files) = files ++ [""] := by
  unfold linesOf
  have := splitOnChar_pathsContent files [] h
  rw [List.append_nil] at this
  rw [this]
  have hnil : splitOnChar '\n' ([] : List Char) = [[]] := rfl
  rw [hnil, List.map_append, map_mk_data]
  rfl

theorem linesOf_allPathsContent (rs : List (String × List String))
    (hk : ∀ r ∈ rs, '\n' ∉ (headerOf r.1).data)
    (hp : ∀ r ∈ rs, ∀ p ∈ r.2, '\n' ∉ p.data) :
    linesOf (allPathsContent rs)
      = "# All contamination files" :: sectionLines rs ++ [""] := by
  unfold linesOf
  have hdata : (allPathsContent rs).data
      = "# All contamination files".data ++ '\n' :: (sectionsContent rs).data := by
    show ("# All contamination files" ++ "\n" ++ sectionsContent rs).data = _
    rw [strData_append, strData_append,
      show ("\n" : String).data = ['\n'] from by decide]
    simp
  rw [hdata, splitOnChar_append_cons '\n' _ _ (by decide),
    splitOnChar_sectionsContent rs hk hp]
  simp only [List.map_cons, List.map_append, map_mk_data]
  have hmk : String.mk "# All contamination files".data
      = "# All contamination files" := by decide
  rw [hmk]
  rfl

theorem dropWhile_append_all (p : String → Bool) (a rest : List String)
    (h : ∀ x ∈ a, p x = true) :
    List.dropWhile p (a ++ rest) = List.dropWhile p rest := by
  induction a with
  | nil => rfl
  | cons x a' ih =>
    rw [List.cons_append, List.dropWhile_cons, if_pos (h x (List.mem_cons_self x a'))]
    exact ih (fun y hy => h y (List.mem_cons_of_mem x hy))

theorem takeWhile_append_stop (p : String → Bool) (a : List String) (x : String)
    (rest : List String) (h : ∀ y ∈ a, p y = true) (hx : p x = false) :
    List.takeWhile p (a ++ x :: rest) = a := by
  induction a with
  | nil => simp [List.takeWhile_cons, hx]
  | cons y a' ih =>
    rw [List.cons_append, List.takeWhile_cons, if_pos (h y (List.mem_cons_self y a'))]
    rw [ih (fun z hz => h z (List.mem_cons_of_mem y hz))]

theorem isPrefixList_exists :
    ∀ {a b : List Char}, isPrefixList a b = true → ∃ t, b = a ++ t
  | [], b, _ => ⟨b, rfl⟩
  | c :: a', b, h => by
    cases b with
    | nil => simp [isPrefixList] at h
    | cons d b' =>
      simp only [isPrefixList, Bool.and_eq_true, decide_eq_true_eq] at h
      obtain ⟨rfl, h2⟩ := h
      obtain ⟨t, rfl⟩ := isPrefixList_exists h2
      exact ⟨t, rfl⟩

/-- Paths returned by the Locator contain no newline (when the listing
does not) and contain a slash (they lie strictly under the root). -/
theorem glob_mem_facts (fs : FileSystem) (dir pat : String)
    (hnl : ∀ p ∈ fs, '\n' ∉ p.data) :
    ∀ p ∈ List.insertionSort pathLe (globRecursive fs dir pat),
      '\n' ∉ p.data ∧ '/' ∈ p.data := by
  intro p hp
  have hp' := (List.mem_insertionSort pathLe).mp hp
  have hmem := List.mem_filter.mp hp'
  refine ⟨hnl p hmem.1, ?_⟩
  have hpre : isPrefixList (dir.data ++ ['/']) p.data = true := by
    have hb := hmem.2
    simp only [Bool.and_eq_true] at hb
    exact hb.1.1
  obtain ⟨t, ht⟩ := isPrefixList_exists hpre
  rw [ht]
  simp

theorem dropWhile_sectionLines (t : String) (files : List String)
    (pre post : List (String × List String)) (tail : List String)
    (hpre_hdr : ∀ r ∈ pre, (headerOf r.1 != headerOf t) = true)
    (hpre_paths : ∀ r ∈ pre, ∀ p ∈ r.2, (p != headerOf t) = true)
    (hblank : (("" : String) != headerOf t) = true) :
    List.dropWhile (fun l => l != headerOf t)
        (sectionLines (pre ++ (t, files) :: post) ++ tail)
      = headerOf t :: ((files ++ [""] ++ sectionLines post) ++ tail) := by
  induction pre with
  | nil =>
    rw [List.nil_append,
      show sectionLines ((t, files) :: post)
        = headerOf t :: (files ++ [""] ++ sectionLines post) from rfl,
      List.cons_append, List.dropWhile_cons]
    rw [if_neg (by simp [bne_self_eq_false])]
  | cons r pre' ih =>
    rw [List.cons_append,
      show sectionLines (r :: (pre' ++ (t, files) :: post))
        = headerOf r.1 :: (r.2 ++ [""] ++ sectionLines (pre' ++ (t, files) :: post))
        from rfl,
      List.cons_append, List.dropWhile_cons,
      if_pos (hpre_hdr r (List.mem_cons_self r pre'))]
    rw [List.append_assoc, List.append_assoc, List.cons_append]
    rw [dropWhile_append_all _ r.2 _
      (fun p hp => hpre_paths r (List.mem_cons_self r pre') p hp)]
    rw [List.dropWhile_cons, if_pos hblank]
    rw [← List.append_assoc]
    exact ih (fun q hq => hpre_hdr q (List.mem_cons_of_mem r hq))
      (fun q hq => hpre_paths q (List.mem_cons_of_mem r hq))

/-- Extracting the region between a category's header and the next blank
line from the combined file recovers exactly that category's paths. -/
theorem sectionAfterHeader_extract (t : String) (files : List String)
    (pre post : List (String × List String)) (before tail : List String)
    (hbefore : ∀ l ∈ before, (l != headerOf t) = true)
    (hpre_hdr : ∀ r ∈ pre, (headerOf r.1 != headerOf t) = true)
    (hpre_paths : ∀ r ∈ pre, ∀ p ∈ r.2, (p != headerOf t) = true)
    (hblank : (("" : String) != headerOf t) = true)
    (hfiles : ∀ p ∈ files, (p != "") = true) :
    sectionAfterHeader (before ++ sectionLines (pre ++ (t, files) :: post) ++ tail)
      (headerOf t) = files := by
  unfold sectionAfterHeader
  rw [List.append_assoc, dropWhile_append_all _ before _ hbefore,
    dropWhile_sectionLines t files pre post tail hpre_hdr hpre_paths hblank]
  rw [List.drop_one, List.tail_cons]
  rw [List.append_assoc, List.append_assoc, List.singleton_append]
  exact takeWhile_append_stop _ files "" _ hfiles (bne_self_eq_false "")

theorem bne_of_no_slash (L : List String)
    (hL : ∀ p ∈ L, '\n' ∉ p.data ∧ '/' ∈ p.data) (h : String)
    (hh : '/' ∉ h.data) : ∀ p ∈ L, (p != h) = true := by
  intro p hp
  simp only [bne_iff_ne, ne_eq]
  intro heq
  exact hh (heq ▸ (hL p hp).2)

theorem bne_empty_of_slash (L : List String)
    (hL : ∀ p ∈ L, '\n' ∉ p.data ∧ '/' ∈ p.data) :
    ∀ p ∈ L, (p != "") = true := by
  intro p hp
  simp only [bne_iff_ne, ne_eq]
  intro heq
  have hs := (hL p hp).2
  rw [heq] at hs
  simp at hs

/-- C3: for each category, the region of the combined file between that
category's header and the next blank line is exactly the category's path
list, which (followed by one empty line) is also exactly the line
content of that category's dedicated `{base}_{category}_paths.txt`
file. -/
theorem writer_roundtrip (fs : FileSystem) (dir out : String)
    (hnl : ∀ p ∈ fs, '\n' ∉ p.data) :
    ∀ fp ∈ patterns, ∀ files,
      List.lookup fp.1 (find_contamination_files fs dir) = some files →
      (pyBase out ++ "_" ++ fp.1 ++ "_paths.txt", pathsContent files)
          ∈ save_results (find_contamination_files fs dir) out ∧
      (pyBase out ++ "_all_paths.txt",
          allPathsContent (find_contamination_files fs dir))
          ∈ save_results (find_contamination_files fs dir) out ∧
      sectionAfterHeader (linesOf (allPathsContent (find_contamination_files fs dir)))
          (headerOf fp.1) = files ∧
      linesOf (pathsContent files) = files ++ [""] := by
  intro fp hfp files hlk
  have hfind : find_contamination_files fs dir =
      [("getpileupsummaries",
        List.insertionSort pathLe (globRecursive fs dir "*_getpileupsummaries.table")),
       ("calculatecontamination",
        List.insertionSort pathLe (globRecursive fs dir "*_calculatecontamination.table")),
       ("segments",
        List.insertionSort pathLe (globRecursive fs dir "*_segments.table"))] := by
    simp [find_contamination_files, patterns]
  have hfacts1 := glob_mem_facts fs dir "*_getpileupsummaries.table" hnl
  have hfacts2 := glob_mem_facts fs dir "*_calculatecontamination.table" hnl
  have hfacts3 := glob_mem_facts fs dir "*_segments.table" hnl
  have hlines : linesOf (allPathsContent (find_contamination_files fs dir))
      = "# All contamination files" ::
          sectionLines (find_contamination_files fs dir) ++ [""] := by
    apply linesOf_allPathsContent
    · rw [hfind]
      intro r hr
      simp only [List.mem_cons, List.not_mem_nil, or_false] at hr
      rcases hr with rfl | rfl | rfl
      · exact (by decide : '\n' ∉ (headerOf "getpileupsummaries").data)
      · exact (by decide : '\n' ∉ (headerOf "calculatecontamination").data)
      · exact (by decide : '\n' ∉ (headerOf "segments").data)
    · rw [hfind]
      intro r hr p hp
      simp only [List.mem_cons, List.not_mem_nil, or_false] at hr
      rcases hr with rfl | rfl | rfl
      · exact (hfacts1 p hp).1
      · exact (hfacts2 p hp).1
      · exact (hfacts3 p hp).1
  rw [hfind] at hlines
  simp only [patterns, List.mem_cons, List.not_mem_nil, or_false] at hfp
  rcases hfp with rfl | rfl | rfl
  · rw [hfind] at hlk
    simp [List.lookup] at hlk
    subst hlk
    refine ⟨?_, ?_, ?_, ?_⟩
    · rw [hfind]; simp [save_results]
    · rw [hfind]; simp [save_results]
    · rw [hfind, hlines]
      exact sectionAfterHeader_extract "getpileupsummaries" _ []
        [("calculatecontamination",
          List.insertionSort pathLe (globRecursive fs dir "*_calculatecontamination.table")),
         ("segments",
          List.insertionSort pathLe (globRecursive fs dir "*_segments.table"))]
        ["# All contamination files"] [""]
        (by intro l hl; simp only [List.mem_singleton] at hl; subst hl; decide)
        (by intro r hr; simp at hr)
        (by intro r hr; simp at hr)
        (by decide)
        (bne_empty_of_slash _ hfacts1)
    · exact linesOf_pathsContent _ (fun p hp => (hfacts1 p hp).1)
  · rw [hfind] at hlk
    simp [List.lookup] at hlk
    subst hlk
    refine ⟨?_, ?_, ?_, ?_⟩
    · rw [hfind]; simp [save_results]
    · rw [hfind]; simp [save_results]
    · rw [hfind, hlines]
      exact sectionAfterHeader_extract "calculatecontamination" _
        [("getpileupsummaries",
          List.insertionSort pathLe (globRecursive fs dir "*_getpileupsummaries.table"))]
        [("segments",
          List.insertionSort pathLe (globRecursive fs dir "*_segments.table"))]
        ["# All contamination files"] [""]
        (by intro l hl; simp only [List.mem_singleton] at hl; subst hl; decide)
        (by
          intro r hr
          simp only [List.mem_singleton] at hr
          subst hr
          exact (by decide :
            (headerOf "getpileupsummaries" != headerOf "calculatecontamination") = true))
        (by
          intro r hr
          simp only [List.mem_singleton] at hr
          subst hr
          exact bne_of_no_slash _ hfacts1 _ (by decide))
        (by decide)
        (bne_empty_of_slash _ hfacts2)
    · exact linesOf_pathsContent _ (fun p hp => (hfacts2 p hp).1)
  · rw [hfind] at hlk
    simp [List.lookup] at hlk
    subst hlk
    refine ⟨?_, ?_, ?_, ?_⟩
    · rw [hfind]; simp [save_results]
    · rw [hfind]; simp [save_results]
    · rw [hfind, hlines]
      exact sectionAfterHeader_extract "segments" _
        [("getpileupsummaries",
          List.insertionSort pathLe (globRecursive fs dir "*_getpileupsummaries.table")),
         ("calculatecontamination",
          List.insertionSort pathLe (globRecursive fs dir "*_calculatecontamination.table"))]
        [] ["# All contamination files"] [""]
        (by intro l hl; simp only [List.mem_singleton] at hl; subst hl; decide)
        (by
          intro r hr
          simp only [List.mem_cons, List.not_mem_nil, or_false] at hr
          rcases hr with rfl | rfl
          · exact (by decide :
              (headerOf "getpileupsummaries" != headerOf "segments") = true)
          · exact (by decide :
              (headerOf "calculatecontamination" != headerOf "segments") = true))
        (by
          intro r hr
          simp only [List.mem_cons, List.not_mem_nil, or_false] at hr
          rcases hr with rfl | rfl
          · exact bne_of_no_slash _ hfacts1 _ (by decide)
          · exact bne_of_no_slash _ hfacts2 _ (by decide))
        (by decide)
        (bne_empty_of_slash _ hfacts3)
    · exact linesOf_pathsContent _ (fun p hp => (hfacts3 p hp).1)

/-- Witness for C3 on a concrete tree with one file per category. -/
theorem writer_roundtrip_witness :
    (pyBase "list" ++ "_" ++ "segments" ++ "_paths.txt",
        pathsContent ["w/c_segments.table"])
      ∈ save_results (find_contamination_files
          ["w/a_getpileupsummaries.table", "w/b_calculatecontamination.table",
           "w/c_segments.table"] "w") "list" ∧
    (pyBase "list" ++ "_all_paths.txt",
        allPathsContent (find_contamination_files
          ["w/a_getpileupsummaries.table", "w/b_calculatecontamination.table",
           "w/c_segments.table"] "w"))
      ∈ save_results (find_contamination_files
          ["w/a_getpileupsummaries.table", "w/b_calculatecontamination.table",
           "w/c_segments.table"] "w") "list" ∧
    sectionAfterHeader (linesOf (allPathsContent (find_contamination_files
          ["w/a_getpileupsummaries.table", "w/b_calculatecontamination.table",
           "w/c_segments.table"] "w")))
        (headerOf "segments") = ["w/c_segments.table"] ∧
    linesOf (pathsContent ["w/c_segments.table"]) = ["w/c_segments.table"] ++ [""] :=
  writer_roundtrip
    ["w/a_getpileupsummaries.table", "w/b_calculatecontamination.table",
     "w/c_segments.table"] "w" "list" (by decide)
    ("segments", "*_segments.table") (by decide) ["w/c_segments.table"] (by decide)

/-- The spec's notion of an output base name: the output name with its
(final, dot-separated) extension stripped.  Stated from the spec's words,
to be compared with the script's `replace`-based `pyBase`. -/
def specStripExtension (s : String) : String :=
  if '.' ∈ s.data then
    String.mk (s.data.take (s.data.length - 1 - s.data.reverse.indexOf '.'))
  else s

/-- Counterexample for C7 as stated: for the output name
`paths.json.txt`, stripping the extension leaves `paths.json`, but the
script removes every `.txt` and `.json` occurrence and writes files
named from the base `paths`. -/
theorem writer_base_name_counterexample :
    specStripExtension "paths.json.txt" = "paths.json" ∧
    pyBase "paths.json.txt" = "paths" ∧
    (save_results [("getpileupsummaries", []), ("calculatecontamination", []),
        ("segments", [])] "paths.json.txt").map Prod.fst
      = ["paths_getpileupsummaries_paths.txt", "paths_calculatecontamination_paths.txt",
         "paths_segments_paths.txt", "paths_all_paths.txt"] ∧
    (save_results [("getpileupsummaries", []), ("calculatecontamination", []),
        ("segments", [])] "paths.json.txt").map Prod.fst
      ≠ ["paths.json_getpileupsummaries_paths.txt",
         "paths.json_calculatecontamination_paths.txt",
         "paths.json_segments_paths.txt", "paths.json_all_paths.txt"] := by
  decide

/-- C7 amended: the base name is the output name with every occurrence of
the substrings `.txt` and `.json` removed (in that order); one file per
category named `{base}_{category}_paths.txt` holds that category's paths
in order (one per line, plus the terminating blank split), and the
combined `{base}_all_paths.txt` holds a global comment line followed, per
category, by a commented header, the category's paths and a blank
separator line. -/
theorem writer_names_format (results : List (String × List String)) (out : String)
    (hk : ∀ r ∈ results, '\n' ∉ (headerOf r.1).data)
    (hp : ∀ r ∈ results, ∀ p ∈ r.2, '\n' ∉ p.data) :
    (save_results results out).map Prod.fst
      = results.map (fun r => pyBase out ++ "_" ++ r.1 ++ "_paths.txt")
        ++ [pyBase out ++ "_all_paths.txt"] ∧
    (∀ r ∈ results,
       (pyBase out ++ "_" ++ r.1 ++ "_paths.txt", pathsContent r.2)
           ∈ save_results results out ∧
       linesOf (pathsContent r.2) = r.2 ++ [""]) ∧
    linesOf (allPathsContent results)
      = "# All contamination files" :: sectionLines results ++ [""] := by
  refine ⟨?_, ?_, linesOf_allPathsContent results hk hp⟩
  · simp [save_results]
  · intro r hr
    constructor
    · unfold save_results
      exact List.mem_append_left _ (List.mem_map.mpr ⟨r, hr, rfl⟩)
    · exact linesOf_pathsContent r.2 (hp r hr)

/-- Witness for the amended C7 on a one-category result list. -/
theorem writer_names_format_witness :
    (save_results [("segments", ["r/a_segments.table"])] "out.txt").map Prod.fst
      = [("segments", ["r/a_segments.table"])].map
          (fun r => pyBase "out.txt" ++ "_" ++ r.1 ++ "_paths.txt")
        ++ [pyBase "out.txt" ++ "_all_paths.txt"] ∧
    (∀ r ∈ [("segments", ["r/a_segments.table"])],
       (pyBase "out.txt" ++ "_" ++ r.1 ++ "_paths.txt", pathsContent r.2)
           ∈ save_results [("segments", ["r/a_segments.table"])] "out.txt" ∧
       linesOf (pathsContent r.2) = r.2 ++ [""]) ∧
    linesOf (allPathsContent [("segments", ["r/a_segments.table"])])
      = "# All contamination files"
          :: sectionLines [("segments", ["r/a_segments.table"])] ++ [""] :=
  writer_names_format [("segments", ["r/a_segments.table"])] "out.txt"
    (by decide) (by decide)

/-! ### The symlink mirror -/

/-- A filesystem object at a path in the mirror model. -/
inductive FsEntry
  | regular
  | symlink (target : String)
deriving DecidableEq

/-- The mutable filesystem state the mirror acts on: an association list
from path to entry (first binding wins). -/
structure SymState where
  entries : List (String × FsEntry)
deriving DecidableEq

/-- Fuel-driven symlink resolution: follow links until a regular file is
reached; dangling or cyclic chains yield `false`. -/
def resolveExists (s : SymState) : Nat → String → Bool
  | 0, _ => false
  | fuel + 1, p =>
    match List.lookup p s.entries with
    | some FsEntry.regular => true
    | some (FsEntry.symlink t) => resolveExists s fuel t
    | none => false

/-- `os.path.exists`: follows symlinks, so a dangling link does not
"exist". -/
def sym_path_exists (s : SymState) (p : String) : Bool :=
  resolveExists s (s.entries.length + 1) p

/-- `os.remove`: removes the object (or the link itself) at the path. -/
def osRemove (s : SymState) (p : String) : SymState :=
  ⟨s.entries.filter (fun e => e.1 != p)⟩

/-- `os.symlink(target, p)`: raises `FileExistsError` (here: `none`) when
anything — including a dangling symlink — is at `p`. -/
def osSymlink (s : SymState) (target p : String) : Option SymState :=
  if (List.lookup p s.entries).isSome then none
  else some ⟨(p, FsEntry.symlink target) :: s.entries⟩

/-- One iteration of the mirror loop for one discovered file: compute
`target/<basename>`, remove it if `os.path.exists` holds, then create the
link to `abspath(file_path)`.  `abspath` is a parameter because
`os.path.abspath` depends on the process working directory. -/
def createSymlinkStep (abspath : String → String) (target_directory : String)
    (s : SymState) (file_path : String) : Option SymState :=
  let symlink_path := target_directory ++ "/" ++ basename file_path
  let s1 := if sym_path_exists s symlink_path then osRemove s symlink_path else s
  osSymlink s1 (abspath file_path) symlink_path

/-- `create_file_symlinks`: iterate over all categories' files in
dictionary order.  (`os.makedirs(target, exist_ok=True)` only ensures the
target directory exists; directories are not part of the entry map.) -/
def create_file_symlinks (abspath : String → String)
    (results : List (String × List String)) (target_directory : String)
    (s : SymState) : Option SymState :=
  ((results.map Prod.snd).flatten).foldlM (createSymlinkStep abspath target_directory) s

theorem lookup_filter_ne (p : String) :
    ∀ l : List (String × FsEntry),
      List.lookup p (l.filter (fun e => e.1 != p)) = none := by
  intro l
  induction l with
  | nil => rfl
  | cons e l' ih =>
    by_cases he : e.1 = p
    · have : (e.1 != p) = false := by simp [he]
      simp [List.filter_cons, this, ih]
    · have hb : (e.1 != p) = true := by simp [he]
      have hbeq : (p == e.1) = false := by
        simp only [beq_eq_false_iff_ne, ne_eq]
        intro hq
        exact he hq.symm
      simp [List.filter_cons, hb, List.lookup, hbeq, ih]

/-- Counterexample for C2 as stated: a dangling symlink sits at the
destination (its old source was removed).  A link therefore "already
exists at that destination", yet `os.path.exists` is false, nothing is
removed, and `os.symlink` raises — the mirror neither removes the old
link nor creates the new one. -/
theorem symlink_mirror_counterexample :
    List.lookup ("tgt" ++ "/" ++ basename "new/A_segments.table")
        (SymState.mk [("tgt/A_segments.table",
          FsEntry.symlink "old/A_segments.table")]).entries
      = some (FsEntry.symlink "old/A_segments.table") ∧
    create_file_symlinks id
        [("getpileupsummaries", []), ("calculatecontamination", []),
         ("segments", ["new/A_segments.table"])] "tgt"
        (SymState.mk [("tgt/A_segments.table",
          FsEntry.symlink "old/A_segments.table")])
      = none := by
  decide

/-- C2 amended: for a discovered file the destination is
`target/<basename>`; if the destination exists after following symlinks
(`os.path.exists`) the entry at the destination is removed, and a fresh
symlink to the absolute source path is then created — so re-running with
a changed source replaces the link.  A *dangling* symlink at the
destination, however, is not removed and makes the creation fail. -/
theorem symlink_mirror_replace (abspath : String → String) (tgt : String)
    (s : SymState) (ft fp : String)
    (h : sym_path_exists s (tgt ++ "/" ++ basename fp) = true ∨
         List.lookup (tgt ++ "/" ++ basename fp) s.entries = none) :
    ∃ s', create_file_symlinks abspath [(ft, [fp])] tgt s = some s' ∧
      List.lookup (tgt ++ "/" ++ basename fp) s'.entries
        = some (FsEntry.symlink (abspath fp)) := by
  have hfold : create_file_symlinks abspath [(ft, [fp])] tgt s
      = createSymlinkStep abspath tgt s fp := by
    show ([fp].foldlM (createSymlinkStep abspath tgt) s : Option SymState)
        = createSymlinkStep abspath tgt s fp
    cases hstep : createSymlinkStep abspath tgt s fp <;>
      simp [List.foldlM, hstep]
  have hstep_eq : createSymlinkStep abspath tgt s fp =
      osSymlink (if sym_path_exists s (tgt ++ "/" ++ basename fp) then
          osRemove s (tgt ++ "/" ++ basename fp) else s)
        (abspath fp) (tgt ++ "/" ++ basename fp) := rfl
  rw [hfold, hstep_eq]
  rcases h with h | h
  · rw [if_pos h]
    refine ⟨⟨(tgt ++ "/" ++ basename fp, FsEntry.symlink (abspath fp)) ::
        (osRemove s (tgt ++ "/" ++ basename fp)).entries⟩, ?_, ?_⟩
    · unfold osSymlink
      rw [if_neg (by
        unfold osRemove
        simp [lookup_filter_ne])]
    · simp [List.lookup]
  · have hnex : sym_path_exists s (tgt ++ "/" ++ basename fp) = false := by
      unfold sym_path_exists resolveExists
      rw [h]
    rw [if_neg (by simp [hnex])]
    refine ⟨⟨(tgt ++ "/" ++ basename fp, FsEntry.symlink (abspath fp)) ::
        s.entries⟩, ?_, ?_⟩
    · unfold osSymlink
      rw [if_neg (by simp [h])]
    · simp [List.lookup]

/-- Witness for the amended C2: a regular file at the destination is
removed and replaced by a link to the new source. -/
theorem symlink_mirror_replace_witness :
    ∃ s', create_file_symlinks id [("segments", ["src/a_segments.table"])] "t"
        (SymState.mk [("t/a_segments.table", FsEntry.regular)]) = some s' ∧
      List.lookup ("t" ++ "/" ++ basename "src/a_segments.table") s'.entries
        = some (FsEntry.symlink (id "src/a_segments.table")) :=
  symlink_mirror_replace id "t"
    (SymState.mk [("t/a_segments.table", FsEntry.regular)])
    "segments" "src/a_segments.table" (Or.inl (by decide))

end FindFiles
